import Mathlib

/-!
Verification development for the go-subtree library (package `subtree`).

The Go sources are embedded shallowly: hashes are lists of byte values
(`List Nat`, each `< 256`), `uint64` / `uint32` arithmetic is `Nat` with an
explicit `% 2^64` / `% 2^32` where Go would wrap, byte streams are `List Nat`,
and fallible Go methods return a `GoResult` (distinguishing a normal error
return from a runtime panic) together with the post state of the receiver.

Definitions are translated from `subtree.go` (the `Subtree` container, its
mutators, codec and merkle-proof walker), `subtreedata.go` (the `Data`
transaction-payload store) and `inpoints.go` (`TxInpoints` and its codec).
The merkle tree builder `BuildMerkleTreeStoreFromBytes` lives in a file that
is not part of the sources at hand, so it is modelled from the specification
(see its doc comment).
-/

namespace GoSubtree

/-- Result of a Go call: a value, an error return, or a runtime panic. -/
inductive GoResult (α : Type) where
  | ok : α → GoResult α
  | error : GoResult α
  | panicked : GoResult α
deriving DecidableEq, Repr

/-- A `chainhash.Hash` is an array of 32 bytes; modelled as a list of byte
values. -/
abbrev Hash := List Nat

/-- Well-formedness of a hash value: exactly 32 entries, each a byte. -/
def HashWF (h : Hash) : Prop := h.length = 32 ∧ ∀ b ∈ h, b < 256

instance (h : Hash) : Decidable (HashWF h) := by
  unfold HashWF; infer_instance

/-- The zero hash `chainhash.Hash{}` (32 zero bytes). -/
def zeroHash : Hash := List.replicate 32 0

/-- `CoinbasePlaceholder` from coinbase_placeholder.go: 32 bytes of `0xFF`. -/
def placeholderHash : Hash := List.replicate 32 255

/-- The double-SHA-256 pairing function `Hash256(a||b)` is external to the
library; the development is parametric in it. -/
abbrev Hash256 := Hash → Hash → Hash

/-- A pairing function is well-formed when every output is a 32-byte hash. -/
def Hash256WF (h256 : Hash256) : Prop := ∀ a b, HashWF (h256 a b)

/-- A concrete pairing function used to instantiate closed evaluations. -/
def constHash256 : Hash256 := fun _ _ => List.replicate 32 7

/-- Little-endian encoding of `n` into `k` bytes (as `binary.LittleEndian`
`PutUint64` / `PutUint32` do for `k = 8` / `k = 4`, wrapping modulo `2^(8k)`). -/
def leBytes : Nat → Nat → List Nat
  | 0, _ => []
  | k + 1, n => n % 256 :: leBytes k (n / 256)

/-- Little-endian decoding of a byte list (as `binary.LittleEndian.Uint64`
or `Uint32` on a slice of 8 or 4 bytes). -/
def leToNat : List Nat → Nat
  | [] => 0
  | b :: r => b + 256 * leToNat r

/-- `PutUint64`. -/
def u64le (n : Nat) : List Nat := leBytes 8 n

/-- `PutUint32`. -/
def u32le (n : Nat) : List Nat := leBytes 4 n

/-- Reading exactly `k` bytes from a stream; `none` models the short-read
errors the Go decoders raise (`n != k` after `Read` / a failed `ReadFull`). -/
def readN (k : Nat) (s : List Nat) : Option (List Nat × List Nat) :=
  if s.length < k then none else some (s.take k, s.drop k)

/-- `SubtreeNode`: a leaf record `{Hash, Fee, SizeInBytes}` (fields are
`uint64` in Go; well-formed values are below `2^64`). -/
structure SubtreeNode where
  hash : Hash
  fee : Nat
  sizeInBytes : Nat
deriving DecidableEq, Repr

/-- Well-formedness of a leaf record: byte-valued hash, `uint64` fields. -/
def NodeWF (nd : SubtreeNode) : Prop :=
  HashWF nd.hash ∧ nd.fee < 2 ^ 64 ∧ nd.sizeInBytes < 2 ^ 64

instance (nd : SubtreeNode) : Decidable (NodeWF nd) := by
  unfold NodeWF; infer_instance

/-- The `Subtree` container. `rootHash` is the lazily cached root (a nil
pointer in Go is `none`); `nodeIndex` is the optional hash-to-index map,
modelled as an association list (`nil` map is `none`); the mutex carries no
observable state and is dropped. -/
structure Subtree where
  height : Nat
  fees : Nat
  sizeInBytes : Nat
  feeHash : Hash
  nodes : List SubtreeNode
  conflictingNodes : List Hash
  rootHash : Option Hash
  treeSize : Nat
  nodeIndex : Option (List (Hash × Nat))
deriving DecidableEq, Repr

/-- Well-formedness of an optional cached root hash. -/
def OptHashWF : Option Hash → Prop
  | none => True
  | some r => HashWF r

instance : (o : Option Hash) → Decidable (OptHashWF o)
  | none => inferInstanceAs (Decidable True)
  | some r => inferInstanceAs (Decidable (HashWF r))

/-- Subtree whose stored quantities are representable in Go's types. -/
def SubtreeWF (st : Subtree) : Prop :=
  (∀ nd ∈ st.nodes, NodeWF nd) ∧
  (∀ c ∈ st.conflictingNodes, HashWF c) ∧
  st.fees < 2 ^ 64 ∧ st.sizeInBytes < 2 ^ 64 ∧
  st.nodes.length < 2 ^ 64 ∧ st.conflictingNodes.length < 2 ^ 64 ∧
  OptHashWF st.rootHash

instance (st : Subtree) : Decidable (SubtreeWF st) := by
  unfold SubtreeWF; infer_instance

/-- `NewTree(height)`: empty subtree with capacity `2^height` (the Go
constructor rejects negative heights, which `Nat` rules out; the zero values
of the remaining fields follow the struct literal). -/
def newTree (height : Nat) : Subtree :=
  { height := height
    fees := 0
    sizeInBytes := 0
    feeHash := zeroHash
    nodes := []
    conflictingNodes := []
    rootHash := none
    treeSize := 2 ^ height
    nodeIndex := none }

/-- Fuel-driven ceiling base-2 logarithm (the fuel makes it structurally
recursive so concrete values reduce inside the kernel; `ceilLog2` below
always passes enough fuel and agrees with `Nat.clog 2`). -/
def ceilLog2Aux : Nat → Nat → Nat
  | 0, _ => 0
  | fuel + 1, n => if n ≤ 1 then 0 else ceilLog2Aux fuel ((n + 1) / 2) + 1

/-- `ceil(log2 n)` as the Go code computes it via `math.Ceil(math.Log2(x))`
(exact for every length the float computation handles exactly; 0 for
`n = 0`, where the Go float conversion is unspecified and no claim looks). -/
def ceilLog2 (n : Nat) : Nat := ceilLog2Aux n n

/-- Go map assignment `m[k] = v`: overwrite the binding when present,
otherwise add it. -/
def assocPut (m : List (Hash × Nat)) (k : Hash) (v : Nat) : List (Hash × Nat) :=
  if m.any (fun p => p.1 = k) then
    m.map (fun p => if p.1 = k then (k, v) else p)
  else m ++ [(k, v)]

/-- Go map deletion `delete(m, k)`. -/
def assocErase (m : List (Hash × Nat)) (k : Hash) : List (Hash × Nat) :=
  m.filter (fun p => p.1 ≠ k)

/-- Modelled from the spec: the merkle pairing rule of §4.C. The builder file
(`BuildMerkleTreeStoreFromBytes` and its helpers) is not among the sources;
per §4.C a slot whose children are both zero stays zero, a zero right child
duplicates the left child (`Hash256(L||L)`), otherwise `Hash256(L||R)`. -/
def merkleParent (h256 : Hash256) (l r : Hash) : Hash :=
  if l = zeroHash ∧ r = zeroHash then zeroHash
  else if r = zeroHash then h256 l l
  else h256 l r

/-- Modelled from the spec: one internal layer of §4.C — adjacent pairs are
combined with `merkleParent` (an odd tail is paired with the zero hash; after
padding to a power of two this case never arises). -/
def merkleLayer (h256 : Hash256) : List Hash → List Hash
  | a :: b :: rest => merkleParent h256 a b :: merkleLayer h256 rest
  | [a] => [merkleParent h256 a zeroHash]
  | [] => []

/-- Modelled from the spec: all layers above `l`, concatenated bottom-up
(§4.C). `fuel` bounds the number of layers; callers pass `l.length`, which
dominates `log2` of it. -/
def buildLayersFuel (h256 : Hash256) : Nat → List Hash → List Hash
  | 0, _ => []
  | fuel + 1, l =>
    if l.length ≤ 1 then []
    else merkleLayer h256 l ++ buildLayersFuel h256 fuel (merkleLayer h256 l)

/-- Modelled from the spec: `BuildMerkleTreeStoreFromBytes` (§4.C). The
builder file is not among the sources; per §4.C the result is empty for no
leaves, the sole leaf hash for one leaf, and otherwise the flat parent array
of the leaves padded with zero hashes up to the next power of two
(`2 ^ Nat.clog 2 n`), `N - 1` entries ending in the root. -/
def buildMerkleTreeStoreFromBytes (h256 : Hash256) (nodes : List SubtreeNode) : List Hash :=
  match nodes with
  | [] => []
  | [nd] => [nd.hash]
  | _ =>
    let leaves := nodes.map (fun nd => nd.hash) ++
      List.replicate (2 ^ ceilLog2 nodes.length - nodes.length) zeroHash
    buildLayersFuel h256 leaves.length leaves

/-- `RootHash()`: return the cache when set, `nil` on an empty subtree, and
otherwise the last entry of the freshly built merkle store, cached. The Go
code routes the computed bytes through `chainhash.NewHash`, which fails (and
leaves a nil cache) unless they are exactly 32 bytes. Returns the result
together with the post state of the receiver. -/
def rootHashOp (h256 : Hash256) (st : Subtree) : Option Hash × Subtree :=
  match st.rootHash with
  | some r => (some r, st)
  | none =>
    if st.nodes.length = 0 then (none, st)
    else
      match (buildMerkleTreeStoreFromBytes h256 st.nodes).getLast? with
      | none => (none, st)
      | some r =>
        if r.length = 32 then (some r, { st with rootHash := some r })
        else (none, { st with rootHash := none })

/-- `AddSubtreeNode(node)`: error when full (`len+1 > treeSize`) or when the
hash is the coinbase placeholder; otherwise append, reset the root cache,
add to the running fee/size totals (`uint64` wrap-around) and update the
index map when it exists. -/
def addSubtreeNode (st : Subtree) (nd : SubtreeNode) : GoResult Unit × Subtree :=
  if st.treeSize < st.nodes.length + 1 then (.error, st)
  else if nd.hash = placeholderHash then (.error, st)
  else
    (.ok (),
      { st with
        nodes := st.nodes ++ [nd]
        rootHash := none
        fees := (st.fees + nd.fee) % 2 ^ 64
        sizeInBytes := (st.sizeInBytes + nd.sizeInBytes) % 2 ^ 64
        nodeIndex :=
          match st.nodeIndex with
          | none => none
          | some m => some (assocPut m nd.hash st.nodes.length) })

/-- `AddNode(node, fee, sizeInBytes)`: same checks and effects as
`AddSubtreeNode` on the packed record (the two Go bodies are identical up to
the struct literal). -/
def addNode (st : Subtree) (hsh : Hash) (fee sizeInBytes : Nat) : GoResult Unit × Subtree :=
  addSubtreeNode st ⟨hsh, fee, sizeInBytes⟩

/-- `AddCoinbaseNode()`: error unless empty; append the placeholder leaf with
zero fee and size, reset the cache and both aggregates. -/
def addCoinbaseNode (st : Subtree) : GoResult Unit × Subtree :=
  if st.nodes.length ≠ 0 then (.error, st)
  else
    (.ok (),
      { st with
        nodes := [⟨placeholderHash, 0, 0⟩]
        rootHash := none
        fees := 0
        sizeInBytes := 0 })

/-- `AddConflictingNode(hash)`: error unless the hash occurs among the leaf
hashes; silently succeed when it is already listed; otherwise append it.
(The `nil`-slice materialisation at the top of the Go body is invisible in
the list model.) -/
def addConflictingNode (st : Subtree) (h : Hash) : GoResult Unit × Subtree :=
  if st.nodes.any (fun nd => nd.hash = h) then
    if st.conflictingNodes.any (fun c => c = h) then (.ok (), st)
    else (.ok (), { st with conflictingNodes := st.conflictingNodes ++ [h] })
  else (.error, st)

/-- `RemoveNodeAtIndex(index)`: error when `index >= len` (the Go parameter
is an `int`; a negative argument would panic on the slice access and is
outside every claim, so the index is taken as `Nat`); otherwise subtract the
removed leaf's fee and size (`uint64` wrap-around), splice it out, reset the
cache and delete it from the index map when present. -/
def removeNodeAtIndex (st : Subtree) (index : Nat) : GoResult Unit × Subtree :=
  if st.nodes.length ≤ index then (.error, st)
  else
    match st.nodes[index]? with
    | none => (.panicked, st)
    | some nd =>
      (.ok (),
        { st with
          fees := (st.fees + (2 ^ 64 - nd.fee % 2 ^ 64)) % 2 ^ 64
          sizeInBytes := (st.sizeInBytes + (2 ^ 64 - nd.sizeInBytes % 2 ^ 64)) % 2 ^ 64
          nodes := st.nodes.eraseIdx index
          rootHash := none
          nodeIndex :=
            match st.nodeIndex with
            | none => none
            | some m => some (assocErase m nd.hash) })

/-- `ReplaceRootNode(node, fee, sizeInBytes)`: append when empty, else
overwrite index 0; reset the cache; add the new root's size to `SizeInBytes`
(the old root's size is not subtracted, and `Fees` is untouched); then the
final `return st.RootHash()` recomputes and re-caches the root. -/
def replaceRootNode (h256 : Hash256) (st : Subtree) (hsh : Hash) (fee sizeInBytes : Nat) :
    Option Hash × Subtree :=
  rootHashOp h256
    { st with
      nodes :=
        if st.nodes.length < 1 then [⟨hsh, fee, sizeInBytes⟩]
        else ⟨hsh, fee, sizeInBytes⟩ :: st.nodes.tail
      rootHash := none
      sizeInBytes := (st.sizeInBytes + sizeInBytes) % 2 ^ 64 }

/-- Serialisation of one leaf record: 32-byte hash, fee, size (48 bytes). -/
def encodeNode (nd : SubtreeNode) : List Nat :=
  nd.hash ++ u64le nd.fee ++ u64le nd.sizeInBytes

/-- `Serialize()`: write `RootHash()` (dereferencing the nil pointer —
a panic — when it is absent), fees, size, node count, the 48-byte node
records, the conflicting count and the conflicting hashes, all little
endian. Returns the bytes with the post state (`RootHash` may cache). -/
def serializeOp (h256 : Hash256) (st : Subtree) : GoResult (List Nat) × Subtree :=
  match rootHashOp h256 st with
  | (none, st') => (.panicked, st')
  | (some root, st') =>
    (.ok (root ++ u64le st'.fees ++ u64le st'.sizeInBytes ++
        u64le st'.nodes.length ++ (st'.nodes.map encodeNode).flatten ++
        u64le st'.conflictingNodes.length ++ st'.conflictingNodes.flatten),
      st')

/-- `deserializeNodes` body: read `numLeaves` 48-byte records
(`bytes48[:32]`, `[32:40]`, `[40:48]`). -/
def readNodes : Nat → List Nat → Option (List SubtreeNode × List Nat)
  | 0, s => some ([], s)
  | k + 1, s =>
    match readN 48 s with
    | none => none
    | some (chunk, r) =>
      match readNodes k r with
      | none => none
      | some (nds, r') =>
        some (⟨chunk.take 32, leToNat ((chunk.drop 32).take 8),
          leToNat ((chunk.drop 40).take 8)⟩ :: nds, r')

/-- Reading `k` 32-byte hashes (the conflicting-node loop of
`deserializeConflictingNodes`, and the parent-hash loop of `TxInpoints`). -/
def readHashes : Nat → List Nat → Option (List Hash × List Nat)
  | 0, s => some ([], s)
  | k + 1, s =>
    match readN 32 s with
    | none => none
    | some (h, r) =>
      match readHashes k r with
      | none => none
      | some (hs, r') => some (h :: hs, r')

/-- `DeserializeFromReader`: root hash (32), fees (8), size (8), then
`deserializeNodes` (count plus 48-byte records) and
`deserializeConflictingNodes` (count plus 32-byte hashes). The cache is set
to the root bytes as read; `height` becomes `ceil(log2(numLeaves))` and
`treeSize` becomes `numLeaves` (for `numLeaves = 0` the Go float conversion
of `ceil(log2(0)) = -inf` is unspecified; `Nat.clog` yields 0 there, and no
claim depends on that field). Trailing bytes are left unread, as with a
reader. `none` is any error return. -/
def deserializeFromReader (b : List Nat) : Option Subtree :=
  match readN 32 b with
  | none => none
  | some (root, r1) =>
    match readN 8 r1 with
    | none => none
    | some (feesB, r2) =>
      match readN 8 r2 with
      | none => none
      | some (sizeB, r3) =>
        match readN 8 r3 with
        | none => none
        | some (numB, r4) =>
          match readNodes (leToNat numB) r4 with
          | none => none
          | some (nds, r5) =>
            match readN 8 r5 with
            | none => none
            | some (numConfB, r6) =>
              match readHashes (leToNat numConfB) r6 with
              | none => none
              | some (confs, _) =>
                some
                  { height := ceilLog2 (leToNat numB)
                    fees := leToNat feesB
                    sizeInBytes := leToNat sizeB
                    feeHash := zeroHash
                    nodes := nds
                    conflictingNodes := confs
                    rootHash := some root
                    treeSize := leToNat numB
                    nodeIndex := none }

/-- The sibling-slot selection of an inner `GetMerkleProof` iteration:
`treePos` moves right from an even slot when `totalLength > treePos+1` and
the right entry is non-zero (`totalLength` is `2^height + len(merkleTree)`),
and moves left from an odd slot when the left entry is non-zero (that left
access is unguarded, as in Go; an out-of-range access is a panic). -/
def gmpSibling (mt : List Hash) (height tp0 : Nat) : GoResult Nat :=
  if tp0 % 2 = 0 then
    if 2 ^ height + mt.length > tp0 + 1 then
      match mt[tp0 + 1]? with
      | none => .panicked
      | some s => if s = zeroHash then .ok tp0 else .ok (tp0 + 1)
    else .ok tp0
  else
    match mt[tp0 - 1]? with
    | none => .panicked
    | some s => if s = zeroHash then .ok tp0 else .ok (tp0 - 1)

/-- The loop of `GetMerkleProof`, `for i := height; i > 0; i--`, recursing on
the loop counter. At the leaf level (`i == height`) the sibling is
`Nodes[index+1]` for even `index` and `Nodes[index-1]` otherwise — a Go
slice access that panics out of range. Above the leaves the slot position is
`treeIndexPos + treeIndex`, the sibling slot comes from `gmpSibling`, the
chosen entry is emitted, `treeIndexPos` grows by `2^i` and `treeIndex`
halves. -/
def gmpAux (mt : List Hash) (nodes : List SubtreeNode) (height index : Nat) :
    Nat → Nat → Nat → GoResult (List Hash)
  | 0, _, _ => .ok []
  | i + 1, tip, ti =>
    if i + 1 = height then
      match nodes[if index % 2 = 0 then index + 1 else index - 1]? with
      | none => .panicked
      | some nd =>
        match gmpAux mt nodes height index i tip (ti / 2) with
        | .ok rest => .ok (nd.hash :: rest)
        | r => r
    else
      match gmpSibling mt height (tip + ti) with
      | .ok tp =>
        match mt[tp]? with
        | none => .panicked
        | some sib =>
          match gmpAux mt nodes height index i (tip + 2 ^ (i + 1)) (ti / 2) with
          | .ok rest => .ok (sib :: rest)
          | r => r
      | .error => .error
      | .panicked => .panicked

/-- `GetMerkleProof(index)`: `index >= len(Nodes)` is an error; otherwise
walk `gmpAux` over the freshly built merkle store with
`height = ceil(log2(len))` (exact as `Nat.clog 2` for every length the Go
float computation handles exactly). The Go parameter is an `int`; negative
arguments (which would panic at the leaf access) are outside every claim,
so the index is taken as `Nat`. -/
def getMerkleProof (h256 : Hash256) (st : Subtree) (index : Nat) : GoResult (List Hash) :=
  if st.nodes.length ≤ index then .error
  else
    gmpAux (buildMerkleTreeStoreFromBytes h256 st.nodes) st.nodes
      (ceilLog2 st.nodes.length) index (ceilLog2 st.nodes.length) 0 index

/-- An external `bt.Tx` as the `Data` store sees it: only its serialised
bytes matter here (`SerializeBytes()`). -/
structure BtTx where
  bytes : List Nat
deriving DecidableEq, Repr

/-- `Data` from subtreedata.go: an optional bound subtree and the parallel
transaction array (`nil` entries are `none`). -/
structure SubtreeData where
  subtree : Option Subtree
  txs : List (Option BtTx)
deriving DecidableEq, Repr

/-- The emptiness check loop of `Data.Serialize`:
`for i := txStartIndex; i < subtreeLen; i++ { if s.Txs[i] == nil && i != 0 { return error } }`,
recursing on the remaining iteration count. An out-of-range slice access is
a panic; a nil entry at `i != 0` is the length-mismatch error; a nil entry
at `i == 0` is skipped by the `i != 0` guard. -/
def dataCheck (txs : List (Option BtTx)) : Nat → Nat → GoResult Unit
  | 0, _ => .ok ()
  | remaining + 1, i =>
    match txs[i]? with
    | none => .panicked
    | some none => if i ≠ 0 then .error else dataCheck txs remaining (i + 1)
    | some (some _) => dataCheck txs remaining (i + 1)

/-- The write loop of `Data.Serialize`: concatenate `Txs[i].SerializeBytes()`
for `i` from the start index; a nil entry dereferences a nil pointer (panic),
as does an out-of-range access. -/
def dataWrite (txs : List (Option BtTx)) : Nat → Nat → GoResult (List Nat)
  | 0, _ => .ok []
  | remaining + 1, i =>
    match txs[i]? with
    | none => .panicked
    | some none => .panicked
    | some (some tx) =>
      match dataWrite txs remaining (i + 1) with
      | .ok rest => .ok (tx.bytes ++ rest)
      | r => r

/-- `Data.Serialize()`: error when no subtree is bound; then
`s.Subtree.Nodes[0]` is read to decide whether index 0 holds the coinbase
placeholder (a panic when the subtree has no nodes); the start index is 1
exactly when it does; then the emptiness check loop runs, and on success the
transactions are written out. -/
def dataSerialize (d : SubtreeData) : GoResult (List Nat) :=
  match d.subtree with
  | none => .error
  | some st =>
    match st.nodes[0]? with
    | none => .panicked
    | some n0 =>
      let txStartIndex := if n0.hash = placeholderHash then 1 else 0
      match dataCheck d.txs (st.nodes.length - txStartIndex) txStartIndex with
      | .error => .error
      | .panicked => .panicked
      | .ok _ => dataWrite d.txs (st.nodes.length - txStartIndex) txStartIndex

/-- `TxInpoints` from inpoints.go: deduplicated parent hashes and the
parallel per-parent output-index vectors (`uint32` values). The private
`nrInpoints` counter is not compared by any claim and is omitted. -/
structure TxInpoints where
  parentTxHashes : List Hash
  idxs : List (List Nat)
deriving DecidableEq, Repr

/-- `len32`: clamp a slice length into `uint32` — lengths above
`math.MaxUint32` are reported as `math.MaxInt32`. -/
def len32 (n : Nat) : Nat :=
  if n > 2 ^ 32 - 1 then 2 ^ 31 - 1 else n

/-- Well-formed `TxInpoints`: byte-valued 32-byte hashes and `uint32` index
values. -/
def TxInpointsWF (p : TxInpoints) : Prop :=
  (∀ h ∈ p.parentTxHashes, HashWF h) ∧ ∀ l ∈ p.idxs, ∀ v ∈ l, v < 2 ^ 32

instance (p : TxInpoints) : Decidable (TxInpointsWF p) := by
  unfold TxInpointsWF; infer_instance

/-- `TxInpoints.Serialize`: error when the two slices disagree in length;
otherwise the clamped parent count, all parent hashes, then for every parent
the clamped index count followed by its indexes, all little endian. Note the
loops write every element even when the written count was clamped. -/
def txInpointsSerialize (p : TxInpoints) : GoResult (List Nat) :=
  if p.parentTxHashes.length ≠ p.idxs.length then .error
  else
    .ok (u32le (len32 p.parentTxHashes.length) ++ p.parentTxHashes.flatten ++
      (p.idxs.map fun l => u32le (len32 l.length) ++ (l.map u32le).flatten).flatten)

/-- Reading `k` little-endian `uint32` values (the index loop of
`deserializeFromReader` in inpoints.go). -/
def readU32List : Nat → List Nat → Option (List Nat × List Nat)
  | 0, s => some ([], s)
  | k + 1, s =>
    match readN 4 s with
    | none => none
    | some (c, r) =>
      match readU32List k r with
      | none => none
      | some (vals, r') => some (leToNat c :: vals, r')

/-- Reading `k` per-parent index blocks: a `uint32` count followed by that
many `uint32` indexes. -/
def readIdxBlocks : Nat → List Nat → Option (List (List Nat) × List Nat)
  | 0, s => some ([], s)
  | k + 1, s =>
    match readN 4 s with
    | none => none
    | some (c, r) =>
      match readU32List (leToNat c) r with
      | none => none
      | some (vals, r') =>
        match readIdxBlocks k r' with
        | none => none
        | some (blocks, r'') => some (vals :: blocks, r'')

/-- `TxInpoints.deserializeFromReader` on a fresh `TxInpoints{}`: read the
parent count; a zero count returns at once with both slices still nil; else
read all parent hashes, then the per-parent index blocks. Trailing bytes are
left unread. `none` is any error return. -/
def txInpointsDeserialize (b : List Nat) : Option TxInpoints :=
  match readN 4 b with
  | none => none
  | some (c, r) =>
    if leToNat c = 0 then some ⟨[], []⟩
    else
      match readHashes (leToNat c) r with
      | none => none
      | some (hs, r2) =>
        match readIdxBlocks (leToNat c) r2 with
        | none => none
        | some (blocks, _) => some ⟨hs, blocks⟩

/-- Subtree states reachable through the mutating public API (construction
plus every state-changing method; deserialisation deliberately excluded —
it is treated separately by the claims). -/
inductive Reachable (h256 : Hash256) : Subtree → Prop
  | newT (height : Nat) : Reachable h256 (newTree height)
  | addSub {st : Subtree} (nd : SubtreeNode) :
      Reachable h256 st → Reachable h256 (addSubtreeNode st nd).2
  | addN {st : Subtree} (h : Hash) (f s : Nat) :
      Reachable h256 st → Reachable h256 (addNode st h f s).2
  | addCb {st : Subtree} :
      Reachable h256 st → Reachable h256 (addCoinbaseNode st).2
  | addConf {st : Subtree} (h : Hash) :
      Reachable h256 st → Reachable h256 (addConflictingNode st h).2
  | removeAt {st : Subtree} (i : Nat) :
      Reachable h256 st → Reachable h256 (removeNodeAtIndex st i).2
  | replaceR {st : Subtree} (h : Hash) (f s : Nat) :
      Reachable h256 st → Reachable h256 (replaceRootNode h256 st h f s).2
  | rootH {st : Subtree} :
      Reachable h256 st → Reachable h256 (rootHashOp h256 st).2
  | serial {st : Subtree} :
      Reachable h256 st → Reachable h256 (serializeOp h256 st).2

/-- The cached root, when set, is the builder's root of the current leaves. -/
def CacheOK (h256 : Hash256) (st : Subtree) : Prop :=
  ∀ r, st.rootHash = some r →
    (buildMerkleTreeStoreFromBytes h256 st.nodes).getLast? = some r

/-- Bytes accepted by `DeserializeFromReader` but carrying a root field (32
zero bytes) that is not the merkle root of the single encoded leaf
(32 one bytes, fee 5, size 6), with no conflicting nodes. -/
def c2bytes : List Nat :=
  List.replicate 32 0 ++ u64le 0 ++ u64le 0 ++ u64le 1 ++
    (List.replicate 32 1 ++ u64le 5 ++ u64le 6) ++ u64le 0

/-- The subtree `DeserializeFromReader` produces from `c2bytes`. -/
def c2st : Subtree :=
  { height := 0
    fees := 0
    sizeInBytes := 0
    feeHash := zeroHash
    nodes := [⟨List.replicate 32 1, 5, 6⟩]
    conflictingNodes := []
    rootHash := some zeroHash
    treeSize := 1
    nodeIndex := none }

/-- A reachable state with a populated root cache, for closed evaluation. -/
def c2wSt : Subtree :=
  (rootHashOp constHash256 (addNode (newTree 1) (List.replicate 32 1) 0 0).2).2

/-- A concrete two-leaf subtree with one conflicting node, for closed
evaluation of the codec round-trip. -/
def c1St : Subtree :=
  (addConflictingNode
    (addNode (addNode (newTree 1) (List.replicate 32 1) 3 4).2
      (List.replicate 32 2) 5 6).2
    (List.replicate 32 2)).2

/-- A one-leaf subtree (fee 10, size 20) for the removal evaluation. -/
def c5T : Subtree := (addNode (newTree 1) (List.replicate 32 4) 10 20).2

/-- A three-leaf subtree: the odd leaf count makes index 2 the even last
index, where the proof walker's `Nodes[index+1]` access goes out of range. -/
def c6T : Subtree :=
  (addNode (addNode (addNode (newTree 2) (List.replicate 32 1) 0 0).2
    (List.replicate 32 2) 0 0).2 (List.replicate 32 3) 0 0).2

/-- A `TxInpoints` within the claim's hypotheses (one parent, slices of
equal length 1 below `2^31`) whose single index vector has `2^32` entries —
beyond the `uint32` clamp of the codec's per-parent count. -/
def pStar : TxInpoints := ⟨[zeroHash], [List.replicate (2 ^ 32) 0]⟩

/-- The bytes `TxInpoints.Serialize` produces for `pStar`: parent count 1,
one zero hash, the clamped index count `2^31 - 1` (`math.MaxInt32`), then
all `2^32` indexes — `2^34` zero bytes. -/
def c8B : List Nat :=
  u32le 1 ++ (zeroHash ++ (u32le (2 ^ 31 - 1) ++ List.replicate (2 ^ 34) 0))

/-- A small two-parent `TxInpoints` for closed evaluation of the codec. -/
def c8P : TxInpoints :=
  ⟨[List.replicate 32 1, List.replicate 32 2], [[1, 2, 1], [7]]⟩

section Lemmas

/-- `leBytes` always produces exactly `k` bytes. -/
theorem leBytes_length (k n : Nat) : (leBytes k n).length = k := by
  induction k generalizing n with
  | zero => rfl
  | succ k ih => simp [leBytes, ih]

/-- Every entry of `leBytes` is a byte value. -/
theorem leBytes_lt (k n : Nat) : ∀ b ∈ leBytes k n, b < 256 := by
  induction k generalizing n with
  | zero => simp [leBytes]
  | succ k ih =>
    intro b hb
    simp only [leBytes, List.mem_cons] at hb
    rcases hb with h | h
    · omega
    · exact ih _ b h

/-- Little-endian decoding inverts encoding modulo `256^k`. -/
theorem leToNat_leBytes (k n : Nat) : leToNat (leBytes k n) = n % 256 ^ k := by
  induction k generalizing n with
  | zero => simp [leBytes, leToNat, Nat.mod_one]
  | succ k ih =>
    rw [pow_succ']
    rw [Nat.mod_mul]
    simp [leBytes, leToNat, ih]

/-- Reading exactly the length of a prefix splits an appended stream. -/
theorem readN_append (k : Nat) (a : List Nat) (h : a.length = k) :
    ∀ rest : List Nat, readN k (a ++ rest) = some (a, rest) := by
  intro rest
  subst h
  simp [readN, List.take_left, List.drop_left]

/-- `u64le` produces 8 bytes. -/
theorem u64le_length (n : Nat) : (u64le n).length = 8 := leBytes_length 8 n

/-- `u32le` produces 4 bytes. -/
theorem u32le_length (n : Nat) : (u32le n).length = 4 := leBytes_length 4 n

/-- A well-formed leaf record encodes into 48 bytes. -/
theorem encodeNode_length (nd : SubtreeNode) (h : HashWF nd.hash) :
    (encodeNode nd).length = 48 := by
  simp [encodeNode, u64le, leBytes_length, h.1]

/-- `readNodes` inverts the node-records section of `Serialize`. -/
theorem readNodes_encode (nds : List SubtreeNode) (h : ∀ nd ∈ nds, NodeWF nd) :
    ∀ rest : List Nat,
      readNodes nds.length ((nds.map encodeNode).flatten ++ rest) = some (nds, rest) := by
  induction nds with
  | nil => simp [readNodes]
  | cons nd nds ih =>
    intro rest
    have hnd := h nd (by simp)
    have hrest : ∀ x ∈ nds, NodeWF x := fun x hx => h x (by simp [hx])
    have hlen : (encodeNode nd).length = 48 := encodeNode_length nd hnd.1
    have hs : ((nd :: nds).map encodeNode).flatten ++ rest =
        encodeNode nd ++ ((nds.map encodeNode).flatten ++ rest) := by
      simp
    rw [hs]
    simp only [List.length_cons, readNodes, readN_append 48 _ hlen, ih hrest]
    have h32 : nd.hash.length = 32 := hnd.1.1
    have ht : (encodeNode nd).take 32 = nd.hash := by
      rw [encodeNode, List.append_assoc, ← h32, List.take_left]
    have hd32 : (encodeNode nd).drop 32 = u64le nd.fee ++ u64le nd.sizeInBytes := by
      rw [encodeNode, List.append_assoc, ← h32, List.drop_left]
    have htf : ((encodeNode nd).drop 32).take 8 = u64le nd.fee := by
      rw [hd32, ← u64le_length nd.fee, List.take_left]
    have hd40 : (encodeNode nd).drop 40 = u64le nd.sizeInBytes := by
      have : (encodeNode nd).drop 40 = ((encodeNode nd).drop 32).drop 8 := by
        rw [List.drop_drop]
      rw [this, hd32, ← u64le_length nd.fee, List.drop_left]
    have hts : ((encodeNode nd).drop 40).take 8 = u64le nd.sizeInBytes := by
      rw [hd40, ← u64le_length nd.sizeInBytes, List.take_length]
    rw [ht, htf, hts]
    have hf : leToNat (u64le nd.fee) = nd.fee := by
      rw [u64le, leToNat_leBytes]
      exact Nat.mod_eq_of_lt (by exact_mod_cast hnd.2.1)
    have hsz : leToNat (u64le nd.sizeInBytes) = nd.sizeInBytes := by
      rw [u64le, leToNat_leBytes]
      exact Nat.mod_eq_of_lt (by exact_mod_cast hnd.2.2)
    rw [hf, hsz]

/-- `readHashes` inverts a packed sequence of 32-byte hashes. -/
theorem readHashes_flatten (hs : List Hash) (h : ∀ x ∈ hs, HashWF x) :
    ∀ rest : List Nat,
      readHashes hs.length (hs.flatten ++ rest) = some (hs, rest) := by
  induction hs with
  | nil => simp [readHashes]
  | cons x xs ih =>
    intro rest
    have hx := (h x (by simp)).1
    have hrest : ∀ y ∈ xs, HashWF y := fun y hy => h y (by simp [hy])
    have hsplit : (x :: xs).flatten ++ rest = x ++ (xs.flatten ++ rest) := by simp
    rw [hsplit]
    simp only [List.length_cons, readHashes, readN_append 32 _ hx, ih hrest]

/-- The zero hash is a well-formed hash. -/
theorem zeroHash_wf : HashWF zeroHash := by decide

/-- The constant pairing function is well-formed. -/
theorem constHash256_wf : Hash256WF constHash256 := by
  intro a b
  show HashWF (List.replicate 32 7)
  decide

/-- `merkleParent` of a well-formed pairing function is well-formed. -/
theorem merkleParent_wf (h256 : Hash256) (hwf : Hash256WF h256) (a b : Hash) :
    HashWF (merkleParent h256 a b) := by
  unfold merkleParent
  split
  · exact zeroHash_wf
  · split
    · exact hwf a a
    · exact hwf a b

/-- Every entry of a merkle layer is well-formed. -/
theorem merkleLayer_wf (h256 : Hash256) (hwf : Hash256WF h256) :
    ∀ l : List Hash, ∀ x ∈ merkleLayer h256 l, HashWF x
  | [] => by simp [merkleLayer]
  | [a] => by
    simp only [merkleLayer, List.mem_singleton]
    rintro x rfl
    exact merkleParent_wf h256 hwf a zeroHash
  | a :: b :: rest => by
    intro x hx
    simp only [merkleLayer, List.mem_cons] at hx
    rcases hx with rfl | hx
    · exact merkleParent_wf h256 hwf a b
    · exact merkleLayer_wf h256 hwf rest x hx

/-- Every entry produced by the layer builder is well-formed. -/
theorem buildLayersFuel_wf (h256 : Hash256) (hwf : Hash256WF h256) :
    ∀ (fuel : Nat) (l : List Hash), ∀ x ∈ buildLayersFuel h256 fuel l, HashWF x := by
  intro fuel
  induction fuel with
  | zero => simp [buildLayersFuel]
  | succ fuel ih =>
    intro l x hx
    simp only [buildLayersFuel] at hx
    split at hx
    · simp at hx
    · rcases List.mem_append.1 hx with h | h
      · exact merkleLayer_wf h256 hwf l x h
      · exact ih _ x h

/-- Every entry of the merkle store is well-formed when the leaves are. -/
theorem buildMerkle_wf (h256 : Hash256) (hwf : Hash256WF h256)
    (nodes : List SubtreeNode) (hn : ∀ nd ∈ nodes, HashWF nd.hash) :
    ∀ x ∈ buildMerkleTreeStoreFromBytes h256 nodes, HashWF x := by
  intro x hx
  match nodes, hx with
  | [], hx => simp [buildMerkleTreeStoreFromBytes] at hx
  | [nd], hx =>
    simp only [buildMerkleTreeStoreFromBytes, List.mem_singleton] at hx
    subst hx
    exact hn nd (by simp)
  | a :: b :: rest, hx =>
    exact buildLayersFuel_wf h256 hwf _ _ x hx

/-- A merkle layer has half the entries of its input, rounded up. -/
theorem merkleLayer_length (h256 : Hash256) :
    ∀ l : List Hash, (merkleLayer h256 l).length = (l.length + 1) / 2
  | [] => by simp [merkleLayer]
  | [a] => by simp [merkleLayer]
  | a :: b :: rest => by
    simp only [merkleLayer, List.length_cons, merkleLayer_length h256 rest]
    omega

/-- The layer builder on `2^k` entries (with enough fuel) yields `2^k - 1`
parents. -/
theorem buildLayersFuel_length (h256 : Hash256) :
    ∀ (k fuel : Nat) (l : List Hash), l.length = 2 ^ k → k ≤ fuel →
      (buildLayersFuel h256 fuel l).length = 2 ^ k - 1 := by
  intro k
  induction k with
  | zero =>
    intro fuel l hl _
    match fuel with
    | 0 => simp [buildLayersFuel]
    | fuel + 1 => simp [buildLayersFuel, hl]
  | succ k ih =>
    intro fuel l hl hf
    match fuel with
    | 0 => omega
    | fuel + 1 =>
      have h2 : ¬ l.length ≤ 1 := by
        rw [hl]
        have : 2 ^ 1 ≤ 2 ^ (k + 1) := Nat.pow_le_pow_right (by omega) (by omega)
        omega
      simp only [buildLayersFuel, h2, if_false, List.length_append]
      have hpow : 2 ^ (k + 1) = 2 * 2 ^ k := by ring
      have hml : (merkleLayer h256 l).length = 2 ^ k := by
        rw [merkleLayer_length h256 l, hl, hpow]
        omega
      rw [hml, ih fuel _ hml (by omega)]
      have hone : 1 ≤ 2 ^ k := Nat.one_le_two_pow
      omega

/-- The fuel recursion computes `Nat.clog 2` whenever the fuel covers the
argument. -/
theorem ceilLog2Aux_eq (fuel : Nat) : ∀ n : Nat, n ≤ fuel →
    ceilLog2Aux fuel n = Nat.clog 2 n := by
  induction fuel with
  | zero =>
    intro n h
    have hn : n = 0 := by omega
    subst hn
    rw [ceilLog2Aux, Nat.clog_of_right_le_one (by omega)]
  | succ fuel ih =>
    intro n h
    by_cases h1 : n ≤ 1
    · rw [ceilLog2Aux, if_pos h1, Nat.clog_of_right_le_one h1]
    · rw [ceilLog2Aux, if_neg h1,
        Nat.clog_of_two_le (by omega : (1 : Nat) < 2) (by omega : 2 ≤ n)]
      have harg : (n + 2 - 1) / 2 = (n + 1) / 2 := by omega
      rw [harg, ih ((n + 1) / 2) (by omega)]

/-- `ceilLog2` agrees with `Nat.clog 2`. -/
theorem ceilLog2_eq_clog (n : Nat) : ceilLog2 n = Nat.clog 2 n :=
  ceilLog2Aux_eq n n le_rfl

/-- Every `n` is at most `2 ^ ceilLog2 n`. -/
theorem le_pow_ceilLog2 (n : Nat) : n ≤ 2 ^ ceilLog2 n := by
  match n with
  | 0 => exact Nat.zero_le _
  | n + 1 =>
    rw [ceilLog2_eq_clog]
    exact Nat.le_pow_clog (by omega) _

/-- `ceilLog2` is positive from 2 on. -/
theorem ceilLog2_pos (n : Nat) (h : 2 ≤ n) : 1 ≤ ceilLog2 n := by
  rw [ceilLog2_eq_clog]
  exact Nat.clog_pos (by omega) (by omega)

/-- Size of the padded leaf row. -/
theorem leaves_length (nodes : List SubtreeNode) (_h : 1 ≤ nodes.length) :
    (nodes.map (fun nd => nd.hash) ++
      List.replicate (2 ^ ceilLog2 nodes.length - nodes.length) zeroHash).length =
      2 ^ ceilLog2 nodes.length := by
  have hle : nodes.length ≤ 2 ^ ceilLog2 nodes.length := le_pow_ceilLog2 _
  simp [List.length_append, List.length_replicate]
  omega

/-- Length of the merkle store for at least two leaves. -/
theorem buildMerkle_length (h256 : Hash256) (nodes : List SubtreeNode)
    (h : 2 ≤ nodes.length) :
    (buildMerkleTreeStoreFromBytes h256 nodes).length =
      2 ^ ceilLog2 nodes.length - 1 := by
  match nodes, h with
  | a :: b :: rest, _ =>
    show (buildLayersFuel h256 _ _).length = _
    have hl := leaves_length (a :: b :: rest) (by simp)
    rw [hl]
    exact buildLayersFuel_length h256 (ceilLog2 (a :: b :: rest).length) _ _ hl
      (le_of_lt (Nat.lt_two_pow _))

/-- The merkle store of a non-empty leaf list has a last entry. -/
theorem buildMerkle_getLast_some (h256 : Hash256) (nodes : List SubtreeNode)
    (h : nodes ≠ []) :
    ∃ r, (buildMerkleTreeStoreFromBytes h256 nodes).getLast? = some r := by
  match nodes, h with
  | [nd], _ => exact ⟨nd.hash, rfl⟩
  | a :: b :: rest, _ =>
    have hlen := buildMerkle_length h256 (a :: b :: rest) (by simp)
    have hclog : 1 ≤ ceilLog2 (a :: b :: rest).length :=
      ceilLog2_pos _ (by simp only [List.length_cons]; omega)
    have h2 : 2 ≤ 2 ^ ceilLog2 (a :: b :: rest).length := by
      calc 2 = 2 ^ 1 := by norm_num
      _ ≤ 2 ^ ceilLog2 (a :: b :: rest).length := Nat.pow_le_pow_right (by omega) hclog
    have hne : buildMerkleTreeStoreFromBytes h256 (a :: b :: rest) ≠ [] := by
      intro hnil
      rw [hnil] at hlen
      simp only [List.length_nil] at hlen
      omega
    rcases Option.isSome_iff_exists.1 (List.getLast?_isSome.2 hne) with ⟨r, hr⟩
    exact ⟨r, hr⟩

/-- Overwriting the cache with its own value is the identity. -/
theorem setRoot_eta (st : Subtree) (r : Hash) (h : st.rootHash = some r) :
    { st with rootHash := some r } = st := by
  cases st
  simp_all

/-- When `RootHash()` computes a root from an uncached state, that root is
the last entry of the merkle store. -/
theorem rootHashOp_getLast_of_none (h256 : Hash256) (st : Subtree)
    (hc : st.rootHash = none) (r : Hash) (h : (rootHashOp h256 st).1 = some r) :
    (buildMerkleTreeStoreFromBytes h256 st.nodes).getLast? = some r := by
  unfold rootHashOp at h
  rw [hc] at h
  split at h
  · next r' heq => exact absurd heq (by simp)
  · split at h
    · simp at h
    · split at h
      · simp at h
      · next r' hg =>
        split at h
        · simp only at h
          rw [← h]
          exact hg
        · simp at h

/-- `RootHash()` on a non-empty, well-formed subtree: some 32-byte root is
returned, and the post state carries it as the cache. -/
theorem rootHashOp_some (h256 : Hash256) (st : Subtree) (hwf256 : Hash256WF h256)
    (hns : ∀ nd ∈ st.nodes, HashWF nd.hash) (hcache : OptHashWF st.rootHash)
    (hne : st.nodes ≠ []) :
    ∃ r, HashWF r ∧
      rootHashOp h256 st = (some r, { st with rootHash := some r }) := by
  match hc : st.rootHash with
  | some c =>
    refine ⟨c, ?_, ?_⟩
    · unfold OptHashWF at hcache
      rw [hc] at hcache
      exact hcache
    · rw [setRoot_eta st c hc]
      simp [rootHashOp, hc]
  | none =>
    rcases buildMerkle_getLast_some h256 st.nodes hne with ⟨r, hr⟩
    have hrwf : HashWF r :=
      buildMerkle_wf h256 hwf256 st.nodes hns r (List.mem_of_mem_getLast? hr)
    refine ⟨r, hrwf, ?_⟩
    have hlen0 : ¬ st.nodes.length = 0 := by
      intro h0
      exact hne (List.length_eq_zero.1 h0)
    simp [rootHashOp, hc, hlen0, hr, hrwf.1]

/-- `leToNat` inverts `u64le` below `2^64`. -/
theorem leToNat_u64 (x : Nat) (h : x < 2 ^ 64) : leToNat (u64le x) = x := by
  rw [u64le, leToNat_leBytes]
  exact Nat.mod_eq_of_lt (by norm_num at h ⊢; exact h)

/-- `leToNat` inverts `u32le` below `2^32`. -/
theorem leToNat_u32 (x : Nat) (h : x < 2 ^ 32) : leToNat (u32le x) = x := by
  rw [u32le, leToNat_leBytes]
  exact Nat.mod_eq_of_lt (by norm_num at h ⊢; exact h)

/-- `DeserializeFromReader` inverts the wire layout produced by `Serialize`
(with arbitrary trailing bytes, which a reader leaves unread). -/
theorem deserialize_encoding (r : Hash) (hr : HashWF r) (fees sz : Nat)
    (hf : fees < 2 ^ 64) (hs : sz < 2 ^ 64)
    (nds : List SubtreeNode) (hnds : ∀ nd ∈ nds, NodeWF nd) (hn : nds.length < 2 ^ 64)
    (confs : List Hash) (hconfs : ∀ c ∈ confs, HashWF c) (hm : confs.length < 2 ^ 64)
    (rest : List Nat) :
    deserializeFromReader (r ++ (u64le fees ++ (u64le sz ++ (u64le nds.length ++
      ((nds.map encodeNode).flatten ++ (u64le confs.length ++ (confs.flatten ++ rest))))))) =
      some
        { height := ceilLog2 nds.length
          fees := fees
          sizeInBytes := sz
          feeHash := zeroHash
          nodes := nds
          conflictingNodes := confs
          rootHash := some r
          treeSize := nds.length
          nodeIndex := none } := by
  unfold deserializeFromReader
  simp only [readN_append 32 r hr.1,
    readN_append 8 (u64le fees) (u64le_length fees),
    readN_append 8 (u64le sz) (u64le_length sz),
    readN_append 8 (u64le nds.length) (u64le_length _),
    readN_append 8 (u64le confs.length) (u64le_length _),
    leToNat_u64 nds.length hn,
    leToNat_u64 confs.length hm,
    readNodes_encode nds hnds,
    readHashes_flatten confs hconfs,
    leToNat_u64 fees hf, leToNat_u64 sz hs]

/-- The post state of `Serialize` is that of the `RootHash` call it makes. -/
theorem serializeOp_snd (h256 : Hash256) (st : Subtree) :
    (serializeOp h256 st).2 = (rootHashOp h256 st).2 := by
  unfold serializeOp
  rcases hm : rootHashOp h256 st with ⟨fst, snd⟩
  cases fst <;> simp

/-- `RootHash()` keeps the cache-root invariant. -/
theorem cacheOK_rootHashOp (h256 : Hash256) (st : Subtree) (hok : CacheOK h256 st) :
    CacheOK h256 (rootHashOp h256 st).2 := by
  intro r
  unfold rootHashOp
  split
  · exact fun hr => hok r hr
  · split
    · exact fun hr => hok r hr
    · split
      · exact fun hr => hok r hr
      · next r' heq =>
        split
        · intro hr
          have hrr : r' = r := by simpa using hr
          rw [← hrr]
          exact heq
        · intro hr
          exact absurd hr (by simp)

/-- `ReplaceRootNode` keeps the cache-root invariant (it rebuilds the cache
from the new node list). -/
theorem cacheOK_replaceRootNode (h256 : Hash256) (st : Subtree) (hsh : Hash)
    (fee sz : Nat) : CacheOK h256 (replaceRootNode h256 st hsh fee sz).2 := by
  unfold replaceRootNode
  exact cacheOK_rootHashOp h256 _ (fun r hr => Option.noConfusion hr)

/-- When the right neighbour of a slot is in range, the sibling selection
succeeds with an in-range slot. -/
theorem gmpSibling_ok (mt : List Hash) (height tp0 : Nat)
    (h : tp0 + 1 < mt.length) :
    ∃ tp, gmpSibling mt height tp0 = .ok tp ∧ tp < mt.length := by
  unfold gmpSibling
  by_cases he : tp0 % 2 = 0
  · rw [if_pos he]
    by_cases hc : 2 ^ height + mt.length > tp0 + 1
    · rw [if_pos hc, List.getElem?_eq_getElem h]
      by_cases hz : mt[tp0 + 1] = zeroHash
      · exact ⟨tp0, by simp [hz], by omega⟩
      · exact ⟨tp0 + 1, by simp [hz], h⟩
    · rw [if_neg hc]
      exact ⟨tp0, rfl, by omega⟩
  · rw [if_neg he]
    have h1 : tp0 - 1 < mt.length := by omega
    rw [List.getElem?_eq_getElem h1]
    by_cases hz : mt[tp0 - 1] = zeroHash
    · exact ⟨tp0, by simp [hz], by omega⟩
    · exact ⟨tp0 - 1, by simp [hz], by omega⟩

/-- The inner (above-leaf) phase of the proof walker: starting at layer `i`
with the layer-start offset `2^height - 2^(i+1)` and an in-layer position
below `2^i`, it emits exactly one sibling per layer and never leaves the
flat merkle store. -/
theorem gmpAux_inner (mt : List Hash) (nodes : List SubtreeNode)
    (height index : Nat) (hmt : mt.length = 2 ^ height - 1) :
    ∀ i, i < height → ∀ tip, tip = 2 ^ height - 2 ^ (i + 1) →
      ∀ ti, ti < 2 ^ i →
        ∃ pf : List Hash,
          gmpAux mt nodes height index i tip ti = .ok pf ∧ pf.length = i := by
  intro i
  induction i with
  | zero =>
    intro _ tip _ ti _
    exact ⟨[], rfl, rfl⟩
  | succ i ih =>
    intro hi tip htip ti hti
    have hne : ¬ (i + 1 = height) := by omega
    have hpow2 : 2 ^ (i + 2) ≤ 2 ^ height := Nat.pow_le_pow_right (by omega) (by omega)
    have hp12 : 2 ^ (i + 2) = 2 * 2 ^ (i + 1) := by ring
    have hp01 : 2 ^ (i + 1) = 2 * 2 ^ i := by ring
    have h2i : 1 ≤ 2 ^ i := Nat.one_le_two_pow
    have htp : tip + ti + 1 < mt.length := by
      rw [hmt, htip]
      omega
    obtain ⟨tp, hsib, htpl⟩ := gmpSibling_ok mt height (tip + ti) htp
    have htip2 : tip + 2 ^ (i + 1) = 2 ^ height - 2 ^ (i + 1) := by
      rw [htip]
      omega
    obtain ⟨pf, hpf, hlen⟩ :=
      ih (by omega) (tip + 2 ^ (i + 1)) htip2 (ti / 2) (by omega)
    refine ⟨mt[tp] :: pf, ?_, by simp [hlen]⟩
    simp only [gmpAux, if_neg hne, hsib, List.getElem?_eq_getElem htpl, hpf]

/-- `len32` is the identity below `2^32`. -/
theorem len32_eq (n : Nat) (h : n < 2 ^ 32) : len32 n = n := by
  unfold len32
  rw [if_neg (by omega)]

/-- `u32le 0` is four zero bytes. -/
theorem u32le_zero : u32le 0 = List.replicate 4 0 := rfl

/-- `readU32List` inverts a packed `uint32` vector. -/
theorem readU32List_encode (l : List Nat) (h : ∀ v ∈ l, v < 2 ^ 32) :
    ∀ rest, readU32List l.length ((l.map u32le).flatten ++ rest) = some (l, rest) := by
  induction l with
  | nil => simp [readU32List]
  | cons v vs ih =>
    intro rest
    have hv := h v (by simp)
    have hvs : ∀ x ∈ vs, x < 2 ^ 32 := fun x hx => h x (by simp [hx])
    have hsplit : ((v :: vs).map u32le).flatten ++ rest =
        u32le v ++ ((vs.map u32le).flatten ++ rest) := by simp
    rw [hsplit]
    simp only [List.length_cons, readU32List, readN_append 4 _ (u32le_length v),
      ih hvs, leToNat_u32 v hv]

/-- `readIdxBlocks` inverts the per-parent blocks of `TxInpoints.Serialize`
when every index vector fits the `uint32` count. -/
theorem readIdxBlocks_encode (idxs : List (List Nat))
    (hlen : ∀ l ∈ idxs, l.length < 2 ^ 32)
    (hval : ∀ l ∈ idxs, ∀ v ∈ l, v < 2 ^ 32) :
    ∀ rest, readIdxBlocks idxs.length
      ((idxs.map fun l => u32le (len32 l.length) ++ (l.map u32le).flatten).flatten
        ++ rest) = some (idxs, rest) := by
  induction idxs with
  | nil => simp [readIdxBlocks]
  | cons l ls ih =>
    intro rest
    have h1 := hlen l (by simp)
    have h2 := hval l (by simp)
    have hls1 : ∀ x ∈ ls, x.length < 2 ^ 32 := fun x hx => hlen x (by simp [hx])
    have hls2 : ∀ x ∈ ls, ∀ v ∈ x, v < 2 ^ 32 := fun x hx => hval x (by simp [hx])
    have hsplit : ((l :: ls).map fun x => u32le (len32 x.length) ++
          (x.map u32le).flatten).flatten ++ rest =
        u32le (len32 l.length) ++ ((l.map u32le).flatten ++
          (((ls.map fun x => u32le (len32 x.length) ++ (x.map u32le).flatten).flatten)
            ++ rest)) := by
      simp
    rw [hsplit, len32_eq l.length h1]
    simp only [List.length_cons, readIdxBlocks, readN_append 4 _ (u32le_length _),
      leToNat_u32 l.length h1, readU32List_encode l h2, ih hls1 hls2]

/-- Flattening `k` copies of four zero bytes gives `4k` zero bytes. -/
theorem flatten_replicate_zero (k : Nat) :
    (List.replicate k (List.replicate 4 (0 : Nat))).flatten =
      List.replicate (4 * k) 0 := by
  induction k with
  | zero => simp
  | succ k ih =>
    rw [List.replicate_succ, List.flatten_cons, ih]
    have h4 : 4 * (k + 1) = 4 + 4 * k := by ring
    rw [h4, List.replicate_add]

/-- Reading `k` `uint32` values off a run of `4m` zero bytes yields `k`
zeroes and leaves `4(m-k)` zero bytes. -/
theorem readU32List_replicate_zero (k : Nat) : ∀ m, k ≤ m →
    readU32List k (List.replicate (4 * m) 0) =
      some (List.replicate k 0, List.replicate (4 * (m - k)) 0) := by
  induction k with
  | zero =>
    intro m _
    simp [readU32List]
  | succ k ih =>
    intro m hm
    obtain ⟨m', rfl⟩ : ∃ m', m = m' + 1 := ⟨m - 1, by omega⟩
    have hsplit : List.replicate (4 * (m' + 1)) (0 : Nat) =
        List.replicate 4 0 ++ List.replicate (4 * m') 0 := by
      have h4 : 4 * (m' + 1) = 4 + 4 * m' := by ring
      rw [h4, List.replicate_add]
    rw [hsplit]
    simp only [readU32List, readN_append 4 (List.replicate 4 0) (by simp),
      ih m' (by omega)]
    have hz : leToNat (List.replicate 4 (0 : Nat)) = 0 := rfl
    rw [hz]
    have hm' : m' + 1 - (k + 1) = m' - k := by omega
    rw [hm', ← List.replicate_succ]

/-- One step of `readIdxBlocks`: a `uint32` count `n` followed by a stream
whose head decodes as `n` indexes, then the remaining blocks. -/
theorem readIdxBlocks_cons (k n : Nat) (hn : n < 2 ^ 32)
    (rest vals r' : List Nat) (blocks : List (List Nat)) (r'' : List Nat)
    (h1 : readU32List n rest = some (vals, r'))
    (h2 : readIdxBlocks k r' = some (blocks, r'')) :
    readIdxBlocks (k + 1) (u32le n ++ rest) = some (vals :: blocks, r'') := by
  simp only [readIdxBlocks, readN_append 4 (u32le n) (u32le_length n),
    leToNat_u32 n hn, h1, h2]

/-- `txInpointsDeserialize` step by step: when the four phases (count,
hashes, index blocks) each succeed, the whole deserialisation returns the
parsed fields. -/
theorem txInpointsDeserialize_steps (b r : List Nat) (n : Nat)
    (hn : n < 2 ^ 32) (h0 : readN 4 b = some (u32le n, r)) (hc : n ≠ 0)
    (hs : List Hash) (r2 : List Nat) (h1 : readHashes n r = some (hs, r2))
    (blocks : List (List Nat)) (r3 : List Nat)
    (h2 : readIdxBlocks n r2 = some (blocks, r3)) :
    txInpointsDeserialize b = some ⟨hs, blocks⟩ := by
  unfold txInpointsDeserialize
  simp only [h0, leToNat_u32 n hn, if_neg hc, h1, h2]

end Lemmas

section Claims

/-- C10: whenever `AddNode`, `AddSubtreeNode`, `AddCoinbaseNode` or
`RemoveNodeAtIndex` returns an error, the subtree is observably unchanged —
nodes, fees, size, conflicting list, root cache and index map included
(the whole record is the pre-state). -/
theorem c10_error_atomicity (st : Subtree) (nd : SubtreeNode) (hsh : Hash)
    (fee sz i : Nat) :
    ((addNode st hsh fee sz).1 = .error → (addNode st hsh fee sz).2 = st) ∧
    ((addSubtreeNode st nd).1 = .error → (addSubtreeNode st nd).2 = st) ∧
    ((addCoinbaseNode st).1 = .error → (addCoinbaseNode st).2 = st) ∧
    ((removeNodeAtIndex st i).1 = .error → (removeNodeAtIndex st i).2 = st) := by
  refine ⟨?_, ?_, ?_, ?_⟩
  · intro h
    by_cases h1 : st.treeSize < st.nodes.length + 1
    · simp [addNode, addSubtreeNode, h1]
    · by_cases h2 : hsh = placeholderHash
      · simp [addNode, addSubtreeNode, h1, h2]
      · simp [addNode, addSubtreeNode, h1, h2] at h
  · intro h
    by_cases h1 : st.treeSize < st.nodes.length + 1
    · simp [addSubtreeNode, h1]
    · by_cases h2 : nd.hash = placeholderHash
      · simp [addSubtreeNode, h1, h2]
      · simp [addSubtreeNode, h1, h2] at h
  · intro h
    by_cases h1 : st.nodes.length ≠ 0
    · simp [addCoinbaseNode, h1]
    · simp [addCoinbaseNode, h1] at h
  · intro h
    by_cases h1 : st.nodes.length ≤ i
    · simp [removeNodeAtIndex, h1]
    · rw [removeNodeAtIndex, if_neg h1,
        List.getElem?_eq_getElem (show i < st.nodes.length by omega)] at h
      simp at h

/-- C10 witness: a full subtree rejects `AddNode` and is left unchanged. -/
theorem c10_witness : (addNode (newTree 0) placeholderHash 1 1).2 = newTree 0 :=
  (c10_error_atomicity (newTree 0) ⟨placeholderHash, 0, 0⟩ placeholderHash 1 1 0).1
    (by decide)

/-- C5: `AddNode` fails exactly when the subtree already holds `treeSize`
nodes or the hash is the coinbase placeholder; on success it appends the
node and adds the fee and size to the running totals (`uint64` addition);
`RemoveNodeAtIndex i` for `i < len` removes `nodes[i]` and subtracts its fee
and size from the totals. -/
theorem c5_addNode_removeNodeAtIndex (st : Subtree) (hsh : Hash) (fee sz i : Nat) :
    ((addNode st hsh fee sz).1 = .error ↔
      st.treeSize ≤ st.nodes.length ∨ hsh = placeholderHash) ∧
    ((addNode st hsh fee sz).1 ≠ .error →
      (addNode st hsh fee sz).2.nodes = st.nodes ++ [⟨hsh, fee, sz⟩] ∧
      (addNode st hsh fee sz).2.fees = (st.fees + fee) % 2 ^ 64 ∧
      (addNode st hsh fee sz).2.sizeInBytes = (st.sizeInBytes + sz) % 2 ^ 64) ∧
    (∀ nd, st.nodes[i]? = some nd →
      nd.fee ≤ st.fees → nd.sizeInBytes ≤ st.sizeInBytes →
      st.fees < 2 ^ 64 → st.sizeInBytes < 2 ^ 64 →
      (removeNodeAtIndex st i).1 = .ok () ∧
      (removeNodeAtIndex st i).2.nodes = st.nodes.eraseIdx i ∧
      (removeNodeAtIndex st i).2.fees = st.fees - nd.fee ∧
      (removeNodeAtIndex st i).2.sizeInBytes = st.sizeInBytes - nd.sizeInBytes) := by
  refine ⟨?_, ?_, ?_⟩
  · simp only [addNode, addSubtreeNode]
    split_ifs with h1 h2
    · simp only [iff_true_intro rfl, true_iff]
      exact Or.inl (by omega)
    · simp only [iff_true_intro rfl, true_iff]
      exact Or.inr h2
    · constructor
      · intro hc
        exact absurd hc (by simp)
      · rintro (hc | hc)
        · omega
        · exact absurd hc h2
  · intro h
    simp only [addNode, addSubtreeNode] at h ⊢
    split_ifs at h ⊢ with h1 h2
    · exact absurd rfl h
    · exact absurd rfl h
    · exact ⟨rfl, rfl, rfl⟩
  · intro nd hnd hfee hsz hf64 hs64
    have hi : i < st.nodes.length := by
      by_contra hge
      rw [List.getElem?_eq_none (by omega)] at hnd
      cases hnd
    have hfe : nd.fee % 2 ^ 64 = nd.fee := Nat.mod_eq_of_lt (by omega)
    have hse : nd.sizeInBytes % 2 ^ 64 = nd.sizeInBytes := Nat.mod_eq_of_lt (by omega)
    unfold removeNodeAtIndex
    rw [if_neg (by omega), hnd]
    refine ⟨rfl, rfl, ?_, ?_⟩
    · show (st.fees + (2 ^ 64 - nd.fee % 2 ^ 64)) % 2 ^ 64 = st.fees - nd.fee
      rw [hfe]
      omega
    · show (st.sizeInBytes + (2 ^ 64 - nd.sizeInBytes % 2 ^ 64)) % 2 ^ 64 =
        st.sizeInBytes - nd.sizeInBytes
      rw [hse]
      omega

/-- C5 witness: removing the only node of a one-leaf tree succeeds and
subtracts its fee and size, through the theorem at a concrete input. -/
theorem c5_witness :
    (removeNodeAtIndex c5T 0).1 = .ok () ∧
    (removeNodeAtIndex c5T 0).2.nodes = c5T.nodes.eraseIdx 0 ∧
    (removeNodeAtIndex c5T 0).2.fees =
      c5T.fees - (⟨List.replicate 32 4, 10, 20⟩ : SubtreeNode).fee ∧
    (removeNodeAtIndex c5T 0).2.sizeInBytes =
      c5T.sizeInBytes - (⟨List.replicate 32 4, 10, 20⟩ : SubtreeNode).sizeInBytes :=
  (c5_addNode_removeNodeAtIndex c5T (List.replicate 32 4) 10 20 0).2.2
    ⟨List.replicate 32 4, 10, 20⟩ (by decide) (by decide) (by decide) (by decide)
    (by decide)

/-- C4 counterexample: after `AddCoinbaseNode` has placed the placeholder at
index 0, `AddConflictingNode(PLACEHOLDER)` succeeds and appends the
placeholder to the conflicting list — the claimed exclusion does not exist
in the code. -/
theorem c4_counterexample :
    (addConflictingNode (addCoinbaseNode (newTree 1)).2 placeholderHash).1 = .ok () ∧
    ((addConflictingNode (addCoinbaseNode (newTree 1)).2 placeholderHash).2).conflictingNodes
      = [placeholderHash] := by decide

/-- C4 amended: `AddConflictingNode` fails exactly when the hash is absent
from the node list; otherwise it appends the hash unless it is already
listed — with no special treatment of the placeholder, so the placeholder
does enter the conflicting list once `AddCoinbaseNode` has made it a node. -/
theorem c4_addConflictingNode (st : Subtree) (h : Hash) :
    ((addConflictingNode st h).1 = .error ↔ ∀ nd ∈ st.nodes, nd.hash ≠ h) ∧
    (addConflictingNode st h).2.conflictingNodes =
      (if (∃ nd ∈ st.nodes, nd.hash = h) ∧ h ∉ st.conflictingNodes
        then st.conflictingNodes ++ [h] else st.conflictingNodes) ∧
    (addConflictingNode st h).2.nodes = st.nodes := by
  by_cases hmem : ∃ nd ∈ st.nodes, nd.hash = h
  · have hany : st.nodes.any (fun nd => decide (nd.hash = h)) = true := by
      simp only [List.any_eq_true, decide_eq_true_eq]
      exact hmem
    by_cases hdup : h ∈ st.conflictingNodes
    · have hany2 : st.conflictingNodes.any (fun c => decide (c = h)) = true := by
        simp only [List.any_eq_true, decide_eq_true_eq]
        exact ⟨h, hdup, rfl⟩
      refine ⟨?_, ?_, ?_⟩
      · simp only [addConflictingNode, hany, hany2, if_true]
        constructor
        · intro hc
          exact absurd hc (by simp)
        · intro hall
          rcases hmem with ⟨nd, hin, hEq⟩
          exact absurd hEq (hall nd hin)
      · simp only [addConflictingNode, hany, hany2, if_true]
        rw [if_neg (fun hc => hc.2 hdup)]
      · simp [addConflictingNode, hany, hany2]
    · have hany2 : st.conflictingNodes.any (fun c => decide (c = h)) = false := by
        simp only [List.any_eq_false, decide_eq_true_eq]
        intro c hc hEq
        exact hdup (hEq ▸ hc)
      refine ⟨?_, ?_, ?_⟩
      · simp only [addConflictingNode, hany, hany2, if_true, Bool.false_eq_true, if_false]
        constructor
        · intro hc
          exact absurd hc (by simp)
        · intro hall
          rcases hmem with ⟨nd, hin, hEq⟩
          exact absurd hEq (hall nd hin)
      · simp only [addConflictingNode, hany, hany2, if_true, Bool.false_eq_true, if_false]
        rw [if_pos ⟨hmem, hdup⟩]
      · simp [addConflictingNode, hany, hany2]
  · have hany : st.nodes.any (fun nd => decide (nd.hash = h)) = false := by
      simp only [List.any_eq_false, decide_eq_true_eq]
      intro nd hin hEq
      exact hmem ⟨nd, hin, hEq⟩
    refine ⟨?_, ?_, ?_⟩
    · simp only [addConflictingNode, hany, Bool.false_eq_true, if_false]
      constructor
      · intro _ nd hin hEq
        exact hmem ⟨nd, hin, hEq⟩
      · intro _
        trivial
    · simp only [addConflictingNode, hany, Bool.false_eq_true, if_false]
      rw [if_neg (fun hc => hmem hc.1)]
    · simp [addConflictingNode, hany]

/-- C9 counterexample: `Serialize` on a freshly constructed (zero-node,
uncached) subtree dereferences the nil result of `RootHash()` — a panic,
not an error return of any kind. -/
theorem c9_counterexample :
    (serializeOp constHash256 (newTree 2)).1 = .panicked ∧
    (serializeOp constHash256 (newTree 2)).1 ≠ .error := by decide

/-- C9 amended: `Serialize` on a zero-node subtree with an empty root cache
panics (nil `RootHash()` dereference) instead of returning an `EmptyNodes`
error; the mutating operations `AddNode`, `AddSubtreeNode`,
`AddCoinbaseNode`, `AddConflictingNode` and `RemoveNodeAtIndex` (at
non-negative index) always finish with a value or an error and never
panic. -/
theorem c9_panic_profile (h256 : Hash256) (st : Subtree) (nd : SubtreeNode)
    (hsh : Hash) (fee sz i : Nat) :
    (st.nodes = [] → st.rootHash = none → (serializeOp h256 st).1 = .panicked) ∧
    (addNode st hsh fee sz).1 ≠ .panicked ∧
    (addSubtreeNode st nd).1 ≠ .panicked ∧
    (addCoinbaseNode st).1 ≠ .panicked ∧
    (addConflictingNode st hsh).1 ≠ .panicked ∧
    (removeNodeAtIndex st i).1 ≠ .panicked := by
  refine ⟨?_, ?_, ?_, ?_, ?_, ?_⟩
  · intro hnil hcache
    unfold serializeOp rootHashOp
    rw [hcache, hnil]
    simp
  · unfold addNode addSubtreeNode
    split
    · simp
    · split <;> simp
  · unfold addSubtreeNode
    split
    · simp
    · split <;> simp
  · unfold addCoinbaseNode
    split <;> simp
  · unfold addConflictingNode
    split
    · split <;> simp
    · simp
  · unfold removeNodeAtIndex
    split
    · simp
    · next hlt =>
      rw [List.getElem?_eq_getElem (by omega)]
      simp

/-- C9 witness: the panic on the empty subtree, through the theorem. -/
theorem c9_witness : (serializeOp constHash256 (newTree 3)).1 = .panicked :=
  (c9_panic_profile constHash256 (newTree 3) ⟨zeroHash, 0, 0⟩ zeroHash 0 0 0).1
    (by decide) (by decide)

/-- C7 (code bug): with no subtree bound, `Data.Serialize` returns an error;
with a single non-placeholder node and an empty slot 0 it panics (the
emptiness check skips index 0 via its `i != 0` guard and the write loop then
dereferences the nil transaction) instead of returning the length-mismatch
error; an empty slot at index 1 of a two-node subtree is caught as an error
as the claim describes. -/
theorem c7_data_serialize_nil_slot0_panics :
    dataSerialize ⟨none, []⟩ = .error ∧
    dataSerialize ⟨some (addNode (newTree 0) (List.replicate 32 1) 0 0).2, [none]⟩
      = .panicked ∧
    dataSerialize
      ⟨some (addNode (addNode (newTree 1) (List.replicate 32 1) 0 0).2
        (List.replicate 32 2) 0 0).2, [some ⟨[9]⟩, none]⟩ = .error := by decide

/-- C3: `ReplaceRootNode(h, f, s)` installs `{h,f,s}` at index 0 (appending
when the list was empty — both cases are `node :: tail`), discards the old
root cache and recomputes the root of the new node list, adds the new
root's size to `SizeInBytes` without subtracting the old root's size, and
leaves `Fees`, the conflicting list and the index map untouched. -/
theorem c3_replaceRootNode (h256 : Hash256) (st : Subtree) (hsh : Hash)
    (fee sz : Nat) (hwf256 : Hash256WF h256) (hh : HashWF hsh)
    (hns : ∀ nd ∈ st.nodes, HashWF nd.hash) :
    ∃ r, (replaceRootNode h256 st hsh fee sz).1 = some r ∧
      (buildMerkleTreeStoreFromBytes h256
        (⟨hsh, fee, sz⟩ :: st.nodes.tail)).getLast? = some r ∧
      (replaceRootNode h256 st hsh fee sz).2 =
        { st with
          nodes := ⟨hsh, fee, sz⟩ :: st.nodes.tail
          rootHash := some r
          sizeInBytes := (st.sizeInBytes + sz) % 2 ^ 64 } := by
  have hnodes : (if st.nodes.length < 1 then [(⟨hsh, fee, sz⟩ : SubtreeNode)]
      else ⟨hsh, fee, sz⟩ :: st.nodes.tail) = ⟨hsh, fee, sz⟩ :: st.nodes.tail := by
    cases st.nodes <;> simp
  unfold replaceRootNode
  rw [hnodes]
  set st1 : Subtree :=
    { st with
      nodes := ⟨hsh, fee, sz⟩ :: st.nodes.tail
      rootHash := none
      sizeInBytes := (st.sizeInBytes + sz) % 2 ^ 64 } with hst1
  have hns1 : ∀ nd ∈ st1.nodes, HashWF nd.hash := by
    intro nd hin
    rcases List.mem_cons.1 hin with rfl | hin
    · exact hh
    · exact hns nd (List.mem_of_mem_tail hin)
  rcases rootHashOp_some h256 st1 hwf256 hns1 trivial (by simp [hst1]) with
    ⟨r, hrwf, hop⟩
  refine ⟨r, ?_, ?_, ?_⟩
  · rw [hop]
  · exact rootHashOp_getLast_of_none h256 st1 rfl r (by rw [hop])
  · rw [hop]

/-- C3 witness: replacing the root of an empty one-slot tree appends the
node, caches the new root and adds the size, through the theorem. -/
theorem c3_witness :
    ∃ r, (replaceRootNode constHash256 (newTree 1) (List.replicate 32 9) 2 3).1 = some r ∧
      (buildMerkleTreeStoreFromBytes constHash256
        (⟨List.replicate 32 9, 2, 3⟩ :: (newTree 1).nodes.tail)).getLast? = some r ∧
      (replaceRootNode constHash256 (newTree 1) (List.replicate 32 9) 2 3).2 =
        { newTree 1 with
          nodes := ⟨List.replicate 32 9, 2, 3⟩ :: (newTree 1).nodes.tail
          rootHash := some r
          sizeInBytes := ((newTree 1).sizeInBytes + 3) % 2 ^ 64 } :=
  c3_replaceRootNode constHash256 (newTree 1) (List.replicate 32 9) 2 3
    constHash256_wf (by decide) (by decide)

/-- C2 counterexample: `DeserializeFromReader` accepts `c2bytes` — whose
root field is the zero hash — and installs that root as the cache, although
the merkle root of the single decoded leaf is the leaf hash itself
(independently of the pairing function), so the deserialised cache is
present and different from the merkle root of the node list. -/
theorem c2_counterexample :
    deserializeFromReader c2bytes = some c2st ∧
    c2st.rootHash = some zeroHash ∧
    (buildMerkleTreeStoreFromBytes constHash256 c2st.nodes).getLast? =
      some (List.replicate 32 1) ∧
    zeroHash ≠ List.replicate 32 1 := by decide

/-- C2 amended: on every state reachable through the mutating public API
(`NewTree`, `AddNode`, `AddSubtreeNode`, `AddCoinbaseNode`,
`AddConflictingNode`, `RemoveNodeAtIndex`, `ReplaceRootNode`, `RootHash`,
`Serialize`) the cached root hash is either absent or the root of the merkle
store of the current node list; `Deserialize`, by contrast, installs the
root field of its input unchecked, so the invariant does not extend to
deserialised states. -/
theorem c2_cache_matches_merkle_root (h256 : Hash256) (st : Subtree)
    (hreach : Reachable h256 st) (r : Hash) (hc : st.rootHash = some r) :
    (buildMerkleTreeStoreFromBytes h256 st.nodes).getLast? = some r := by
  have hok : CacheOK h256 st := by
    clear hc
    induction hreach with
    | newT height =>
      intro r' hr'
      exact absurd hr' (by simp [newTree])
    | @addSub st nd _ ih =>
      intro r' hr'
      by_cases h1 : st.treeSize < st.nodes.length + 1
      · simp only [addSubtreeNode, if_pos h1] at hr' ⊢
        exact ih r' hr'
      · by_cases h2 : nd.hash = placeholderHash
        · simp only [addSubtreeNode, if_neg h1, if_pos h2] at hr' ⊢
          exact ih r' hr'
        · simp only [addSubtreeNode, if_neg h1, if_neg h2] at hr'
          exact absurd hr' (by simp)
    | @addN st hsh f s _ ih =>
      intro r' hr'
      by_cases h1 : st.treeSize < st.nodes.length + 1
      · simp only [addNode, addSubtreeNode, if_pos h1] at hr' ⊢
        exact ih r' hr'
      · by_cases h2 : hsh = placeholderHash
        · simp only [addNode, addSubtreeNode, if_neg h1, if_pos h2] at hr' ⊢
          exact ih r' hr'
        · simp only [addNode, addSubtreeNode, if_neg h1] at hr'
          rw [if_neg h2] at hr'
          exact absurd hr' (by simp)
    | @addCb st _ ih =>
      intro r' hr'
      by_cases h1 : st.nodes.length ≠ 0
      · simp only [addCoinbaseNode, if_pos h1] at hr' ⊢
        exact ih r' hr'
      · simp only [addCoinbaseNode, if_neg h1] at hr'
        exact absurd hr' (by simp)
    | @addConf st hsh _ ih =>
      intro r' hr'
      by_cases h1 : st.nodes.any (fun nd => nd.hash = hsh) = true
      · by_cases h2 : st.conflictingNodes.any (fun c => c = hsh) = true
        · simp only [addConflictingNode, h1, h2, if_true] at hr' ⊢
          exact ih r' hr'
        · simp only [addConflictingNode, h1, if_true,
            Bool.not_eq_true] at hr' ⊢
          rw [eq_false_of_ne_true h2] at hr' ⊢
          simp only [Bool.false_eq_true, if_false] at hr' ⊢
          exact ih r' hr'
      · simp only [addConflictingNode] at hr' ⊢
        rw [eq_false_of_ne_true h1] at hr' ⊢
        simp only [Bool.false_eq_true, if_false] at hr' ⊢
        exact ih r' hr'
    | @removeAt st i _ ih =>
      intro r' hr'
      by_cases h1 : st.nodes.length ≤ i
      · simp only [removeNodeAtIndex, if_pos h1] at hr' ⊢
        exact ih r' hr'
      · match hnd : st.nodes[i]? with
        | none =>
          simp only [removeNodeAtIndex, if_neg h1, hnd] at hr' ⊢
          exact ih r' hr'
        | some nd =>
          simp only [removeNodeAtIndex, if_neg h1, hnd] at hr'
          exact absurd hr' (by simp)
    | @replaceR st hsh f s _ _ =>
      exact cacheOK_replaceRootNode h256 st hsh f s
    | @rootH st _ ih =>
      exact cacheOK_rootHashOp h256 st ih
    | @serial st _ ih =>
      rw [CacheOK, serializeOp_snd]
      exact cacheOK_rootHashOp h256 st ih
  exact hok r hc

/-- C2 witness: a cached state reached via `AddNode` then `RootHash` on a
one-leaf tree, where the cache equals the merkle root. -/
theorem c2_witness :
    (buildMerkleTreeStoreFromBytes constHash256 c2wSt.nodes).getLast? =
      some (List.replicate 32 1) :=
  c2_cache_matches_merkle_root constHash256 c2wSt
    (Reachable.rootH (Reachable.addN (List.replicate 32 1) 0 0 (Reachable.newT 1)))
    (List.replicate 32 1) (by decide)

/-- C1: serialising a non-empty well-formed subtree and deserialising the
result yields a subtree with the same root hash (the one `RootHash()`
reports), fees, size, node list and conflicting list, and re-serialising it
reproduces the bytes exactly. -/
theorem c1_serialize_roundtrip (h256 : Hash256) (hwf256 : Hash256WF h256)
    (st : Subtree) (hwf : SubtreeWF st) (hne : st.nodes ≠ []) :
    ∃ (bytes : List Nat) (st' : Subtree),
      (serializeOp h256 st).1 = .ok bytes ∧
      deserializeFromReader bytes = some st' ∧
      st'.rootHash = (rootHashOp h256 st).1 ∧
      st'.fees = st.fees ∧
      st'.sizeInBytes = st.sizeInBytes ∧
      st'.nodes = st.nodes ∧
      st'.conflictingNodes = st.conflictingNodes ∧
      (serializeOp h256 st').1 = .ok bytes := by
  obtain ⟨hnodes, hconfs, hf, hs, hn, hm, hcache⟩ := hwf
  obtain ⟨r, hrwf, hop⟩ :=
    rootHashOp_some h256 st hwf256 (fun nd h => (hnodes nd h).1) hcache hne
  refine ⟨r ++ u64le st.fees ++ u64le st.sizeInBytes ++ u64le st.nodes.length ++
      (st.nodes.map encodeNode).flatten ++ u64le st.conflictingNodes.length ++
      st.conflictingNodes.flatten,
    { height := ceilLog2 st.nodes.length
      fees := st.fees
      sizeInBytes := st.sizeInBytes
      feeHash := zeroHash
      nodes := st.nodes
      conflictingNodes := st.conflictingNodes
      rootHash := some r
      treeSize := st.nodes.length
      nodeIndex := none }, ?_, ?_, ?_, rfl, rfl, rfl, rfl, ?_⟩
  · unfold serializeOp
    rw [hop]
  · have hassoc : r ++ u64le st.fees ++ u64le st.sizeInBytes ++
        u64le st.nodes.length ++ (st.nodes.map encodeNode).flatten ++
        u64le st.conflictingNodes.length ++ st.conflictingNodes.flatten =
        r ++ (u64le st.fees ++ (u64le st.sizeInBytes ++ (u64le st.nodes.length ++
          ((st.nodes.map encodeNode).flatten ++ (u64le st.conflictingNodes.length ++
            (st.conflictingNodes.flatten ++ [])))))) := by
      simp [List.append_assoc]
    rw [hassoc]
    exact deserialize_encoding r hrwf st.fees st.sizeInBytes hf hs
      st.nodes hnodes hn st.conflictingNodes hconfs hm []
  · rw [hop]
  · rfl

/-- C1 witness: a concrete two-leaf subtree with one conflicting node
round-trips, evaluated at the constant pairing function. -/
theorem c1_witness :
    ∃ (bytes : List Nat) (st' : Subtree),
      (serializeOp constHash256 c1St).1 = .ok bytes ∧
      deserializeFromReader bytes = some st' ∧
      st'.rootHash = (rootHashOp constHash256 c1St).1 ∧
      st'.fees = c1St.fees ∧
      st'.sizeInBytes = c1St.sizeInBytes ∧
      st'.nodes = c1St.nodes ∧
      st'.conflictingNodes = c1St.conflictingNodes ∧
      (serializeOp constHash256 st').1 = .ok bytes :=
  c1_serialize_roundtrip constHash256 constHash256_wf c1St (by decide) (by decide)

/-- C6 counterexample: on a three-leaf subtree (every index below 3 is
claimed to yield a two-entry proof) the walker panics at index 2 — the leaf
sibling access `Nodes[3]` is out of range. -/
theorem c6_counterexample :
    c6T.nodes.length = 3 ∧
    getMerkleProof constHash256 c6T 2 = .panicked := by decide

/-- C6 amended: `GetMerkleProof(index)` errors for `index ≥ n`; for
`index < n` it returns a sibling list of length `ceil(log2 n)` whenever
`index` is odd, or has a right neighbour, or `n = 1` — but when `index` is
the even last index of an odd-length node list (and `n > 1`) the leaf-level
access `Nodes[index+1]` is out of range and the call panics instead of
returning a proof. -/
theorem c6_getMerkleProof (h256 : Hash256) (st : Subtree) (index : Nat)
    (hn : 1 ≤ st.nodes.length) :
    (st.nodes.length ≤ index → getMerkleProof h256 st index = .error) ∧
    (index < st.nodes.length →
      ((index % 2 = 1 ∨ index + 1 < st.nodes.length ∨ st.nodes.length = 1) →
        ∃ pf, getMerkleProof h256 st index = .ok pf ∧
          pf.length = ceilLog2 st.nodes.length) ∧
      (index % 2 = 0 → index + 1 = st.nodes.length → st.nodes.length ≠ 1 →
        getMerkleProof h256 st index = .panicked)) := by
  refine ⟨fun hge => by simp [getMerkleProof, hge], fun hlt => ⟨?_, ?_⟩⟩
  · intro hcond
    rw [getMerkleProof, if_neg (by omega)]
    by_cases h1 : st.nodes.length = 1
    · have hh : ceilLog2 st.nodes.length = 0 := by rw [h1]; rfl
      rw [hh]
      exact ⟨[], rfl, rfl⟩
    · have h2 : 2 ≤ st.nodes.length := by omega
      have hh1 : 1 ≤ ceilLog2 st.nodes.length := ceilLog2_pos _ h2
      have hmt : (buildMerkleTreeStoreFromBytes h256 st.nodes).length =
          2 ^ ceilLog2 st.nodes.length - 1 := buildMerkle_length h256 st.nodes h2
      have hnN : st.nodes.length ≤ 2 ^ ceilLog2 st.nodes.length :=
        le_pow_ceilLog2 _
      obtain ⟨h', hh'⟩ : ∃ h', ceilLog2 st.nodes.length = h' + 1 :=
        ⟨ceilLog2 st.nodes.length - 1, by omega⟩
      rw [hh'] at hmt hnN ⊢
      have hsl : (if index % 2 = 0 then index + 1 else index - 1) <
          st.nodes.length := by
        by_cases hpar : index % 2 = 0
        · rw [if_pos hpar]
          omega
        · rw [if_neg hpar]
          omega
      have hp' : 2 ^ (h' + 1) = 2 * 2 ^ h' := by ring
      obtain ⟨pf, hpf, hlen⟩ :=
        gmpAux_inner (buildMerkleTreeStoreFromBytes h256 st.nodes) st.nodes
          (h' + 1) index hmt h' (by omega) 0 (by omega) (index / 2) (by omega)
      refine ⟨st.nodes[if index % 2 = 0 then index + 1 else index - 1].hash :: pf,
        ?_, by simp [hlen]⟩
      simp only [gmpAux, eq_self_iff_true, if_true, List.getElem?_eq_getElem hsl, hpf]
  · intro hpar hplus hne1
    rw [getMerkleProof, if_neg (by omega)]
    have h2 : 2 ≤ st.nodes.length := by omega
    have hh1 : 1 ≤ ceilLog2 st.nodes.length := ceilLog2_pos _ h2
    obtain ⟨h', hh'⟩ : ∃ h', ceilLog2 st.nodes.length = h' + 1 :=
      ⟨ceilLog2 st.nodes.length - 1, by omega⟩
    rw [hh']
    have hnone : st.nodes[if index % 2 = 0 then index + 1 else index - 1]? =
        none := by
      rw [if_pos hpar]
      exact List.getElem?_eq_none (by omega)
    simp only [gmpAux, eq_self_iff_true, if_true, hnone]

/-- C6 witness: index 0 of the three-leaf tree yields a proof of length
`ceil(log2 3) = 2`, through the theorem at a concrete input. -/
theorem c6_witness :
    ∃ pf, getMerkleProof constHash256 c6T 0 = .ok pf ∧
      pf.length = ceilLog2 c6T.nodes.length :=
  ((c6_getMerkleProof constHash256 c6T 0 (by decide)).2 (by decide)).1
    (by decide)

/-- C8 counterexample: `pStar` satisfies the claim's hypotheses (equal slice
lengths below `2^31`, well-formed values), yet its serialisation clamps the
inner count to `math.MaxInt32` while writing all `2^32` indexes, so
deserialising reads back only `2^31 - 1` of them — the index vectors are not
preserved. -/
theorem c8_counterexample :
    pStar.parentTxHashes.length = pStar.idxs.length ∧
    pStar.parentTxHashes.length < 2 ^ 31 ∧
    TxInpointsWF pStar ∧
    txInpointsSerialize pStar = .ok c8B ∧
    txInpointsDeserialize c8B =
      some ⟨[zeroHash], [List.replicate (2 ^ 31 - 1) 0]⟩ ∧
    (⟨[zeroHash], [List.replicate (2 ^ 31 - 1) 0]⟩ : TxInpoints) ≠ pStar := by
  refine ⟨rfl, by show (1 : Nat) < 2 ^ 31; norm_num, ⟨?_, ?_⟩, ?_, ?_, ?_⟩
  · intro h hh
    have hh' : h ∈ [zeroHash] := hh
    rw [List.mem_singleton] at hh'
    subst hh'
    exact zeroHash_wf
  · intro l hl v hv
    have hl' : l ∈ [List.replicate (2 ^ 32) 0] := hl
    rw [List.mem_singleton] at hl'
    subst hl'
    have := List.eq_of_mem_replicate hv
    omega
  · unfold txInpointsSerialize pStar c8B
    rw [if_neg (fun hne => hne rfl)]
    have hmap : ([List.replicate (2 ^ 32) 0].map
        fun l => u32le (len32 l.length) ++ (l.map u32le).flatten) =
        [u32le (2 ^ 31 - 1) ++ List.replicate (2 ^ 34) 0] := by
      simp only [List.map_cons, List.map_nil, List.length_replicate,
        List.map_replicate, u32le_zero, flatten_replicate_zero]
      have hl32 : len32 (2 ^ 32) = 2 ^ 31 - 1 := by norm_num [len32]
      have h34 : 4 * 2 ^ 32 = 2 ^ 34 := by norm_num
      rw [hl32, h34]
    rw [hmap]
    have hlen1 : len32 [zeroHash].length = 1 := len32_eq 1 (by norm_num)
    rw [hlen1]
    simp only [List.flatten_cons, List.flatten_nil, List.append_nil,
      List.append_assoc]
  · have hh : readHashes 1 (zeroHash ++
        (u32le (2 ^ 31 - 1) ++ List.replicate (2 ^ 34) 0)) =
        some ([zeroHash], u32le (2 ^ 31 - 1) ++ List.replicate (2 ^ 34) 0) := by
      have hr := readHashes_flatten [zeroHash]
        (by intro x hx; rw [List.mem_singleton] at hx; subst hx;
            exact zeroHash_wf)
        (u32le (2 ^ 31 - 1) ++ List.replicate (2 ^ 34) 0)
      simp only [List.length_cons, List.length_nil, List.flatten_cons,
        List.flatten_nil, List.append_nil] at hr
      exact hr
    have hu : readU32List (2 ^ 31 - 1) (List.replicate (4 * 2 ^ 32) 0) =
        some (List.replicate (2 ^ 31 - 1) 0,
          List.replicate (4 * (2 ^ 32 - (2 ^ 31 - 1))) 0) :=
      readU32List_replicate_zero (2 ^ 31 - 1) (2 ^ 32) (by norm_num)
    have hblk : readIdxBlocks 1
        (u32le (2 ^ 31 - 1) ++ List.replicate (2 ^ 34) 0) =
        some ([List.replicate (2 ^ 31 - 1) 0],
          List.replicate (4 * (2 ^ 32 - (2 ^ 31 - 1))) 0) :=
      readIdxBlocks_cons 0 (2 ^ 31 - 1) (by norm_num) _ _ _ _ _ hu rfl
    exact txInpointsDeserialize_steps c8B
      (zeroHash ++ (u32le (2 ^ 31 - 1) ++ List.replicate (2 ^ 34) 0)) 1
      (by norm_num)
      (readN_append 4 (u32le 1) (u32le_length 1)
        (zeroHash ++ (u32le (2 ^ 31 - 1) ++ List.replicate (2 ^ 34) 0)))
      (by norm_num) [zeroHash] _ hh [List.replicate (2 ^ 31 - 1) 0] _ hblk
  · intro hEq
    have h2 : ([List.replicate ((2 : Nat) ^ 31 - 1) 0] : List (List Nat)) =
        [List.replicate (2 ^ 32) 0] := congrArg (fun q => q.idxs) hEq
    have h3 := congrArg (fun ls : List (List Nat) => ls.head?) h2
    simp only [List.head?_cons, Option.some.injEq] at h3
    have h4 := congrArg (fun l : List Nat => l.length) h3
    simp only [List.length_replicate] at h4
    norm_num at h4

/-- C8 amended: with both slices of equal length below `2^31` and every
per-parent index vector shorter than `2^32` (the `uint32` count limit),
serialisation succeeds and deserialisation restores the parent hashes and
index vectors exactly, order and duplicates included. -/
theorem c8_txInpoints_roundtrip (p : TxInpoints)
    (hlen : p.parentTxHashes.length = p.idxs.length)
    (hbound : p.parentTxHashes.length < 2 ^ 31)
    (hwf : TxInpointsWF p)
    (hinner : ∀ l ∈ p.idxs, l.length < 2 ^ 32) :
    ∃ b, txInpointsSerialize p = .ok b ∧ txInpointsDeserialize b = some p := by
  obtain ⟨hhash, hval⟩ := hwf
  refine ⟨u32le (len32 p.parentTxHashes.length) ++ p.parentTxHashes.flatten ++
      (p.idxs.map fun l => u32le (len32 l.length) ++ (l.map u32le).flatten).flatten,
    ?_, ?_⟩
  · unfold txInpointsSerialize
    rw [if_neg (by omega)]
  · have hout : p.parentTxHashes.length < 2 ^ 32 := by
      have : (2 : Nat) ^ 31 < 2 ^ 32 := by norm_num
      omega
    rw [len32_eq p.parentTxHashes.length hout]
    by_cases hzero : p.parentTxHashes.length = 0
    · have hph : p.parentTxHashes = [] := List.length_eq_zero.1 hzero
      have hix : p.idxs = [] := List.length_eq_zero.1 (by omega)
      unfold txInpointsDeserialize
      rw [hph, hix]
      have hr0 := readN_append 4 (u32le 0) (u32le_length 0) []
      rw [List.append_nil] at hr0
      simp only [List.length_nil, List.flatten_nil, List.map_nil,
        List.append_nil, hr0, leToNat_u32 0 (by norm_num), if_pos rfl]
      cases p
      simp_all
    · unfold txInpointsDeserialize
      have hblocks := readIdxBlocks_encode p.idxs hinner hval []
      rw [List.append_nil] at hblocks
      simp only [List.append_assoc, readN_append 4 _ (u32le_length _),
        leToNat_u32 _ hout]
      rw [if_neg hzero]
      simp only [readHashes_flatten p.parentTxHashes hhash]
      simp only [hlen, hblocks]

/-- C8 witness: a concrete two-parent inpoint set round-trips, through the
theorem. -/
theorem c8_witness :
    ∃ b, txInpointsSerialize c8P = .ok b ∧ txInpointsDeserialize b = some c8P :=
  c8_txInpoints_roundtrip c8P rfl (by norm_num [c8P]) (by decide) (by decide)

end Claims

end GoSubtree
